import Mathlib

/-!
Verification of the task prioritization engine (`tasks/scoring.py`) and its
thin request-handling layer (`tasks/views.py`).

The engine is embedded shallowly:

* Task records are Lean structures.  Raw fields that the Python code parses
  with `int(...)`, `float(...)` or `_parse_due_date` are modelled at the
  post-parse level: `Option Int` / `Option ℚ`, where `none` stands for a
  missing, non-numeric or unparseable raw value (the source's `try/except`
  fallback branch).  Due dates are modelled as integer day numbers, so that
  `(d - today).days` becomes integer subtraction; `today` (the source's
  `date.today()`) is passed explicitly as a parameter to keep the
  embedding pure, exactly as the spec's §4.1 prescribes for a
  deterministic reimplementation.
* Python dicts become association lists with last-writer-wins insertion
  (`dinsert`), preserving Python's insertion-order semantics, or — for the
  `indegree` / `adj` working dicts of the ordering phase — total functions
  from keys to values together with an explicit key-domain list.
* Python floats become exact rationals (ℚ); `round(x, 3)` becomes exact
  banker's rounding at three decimals (`round3`).
* Recursive depth-first search and the Kahn-style while loop become
  fuel-indexed recursions whose fuel provably dominates the number of
  iterations the Python loops can perform.
-/

namespace TaskPrio

/-- A task record, mirroring the loosely-typed dicts of `scoring.py`.
`id = none` models a dict that lacks an `"id"` key; `due_date`,
`importance` and `estimated_hours` are the values after the source's
parsing fallbacks (`none` = missing / non-numeric / unparseable). -/
structure Task where
  id : Option Int
  due_date : Option Int := none
  importance : Option Int := none
  estimated_hours : Option ℚ := none
  dependencies : List Int := []
deriving DecidableEq

/-- An output record: the original task fields spread together with the
computed `score` and `explanation` (`{**t, "score": ..., "explanation": ...}`). -/
structure ScoredTask where
  task : Task
  score : ℚ
  explanation : String
deriving DecidableEq

/-- One row of `STRATEGY_WEIGHTS`. -/
structure Weights where
  urgency : ℚ
  importance : ℚ
  effort : ℚ
  deps : ℚ
deriving DecidableEq

/-- `STRATEGY_WEIGHTS` from `scoring.py` lines 9–38. -/
def STRATEGY_WEIGHTS : List (String × Weights) :=
  [("fastest_wins", ⟨1/5, 1/5, 1/2, 1/10⟩),
   ("high_impact", ⟨1/5, 3/5, 1/10, 1/10⟩),
   ("deadline_driven", ⟨3/5, 1/5, 1/10, 1/10⟩),
   ("smart_balance", ⟨7/20, 7/20, 3/20, 3/20⟩)]

/-- Association-list insert with Python-dict semantics: overwriting an
existing key in place, otherwise appending at the end. -/
def dinsert {κ α : Type} [DecidableEq κ] (k : κ) (v : α) : List (κ × α) → List (κ × α)
  | [] => [(k, v)]
  | (k', v') :: rest => if k' = k then (k, v) :: rest else (k', v') :: dinsert k v rest

/-- Association-list lookup (Python `d[k]` / `d.get(k)`). -/
def dlookup {κ α : Type} [DecidableEq κ] (k : κ) : List (κ × α) → Option α
  | [] => none
  | (k', v) :: rest => if k' = k then some v else dlookup k rest

/-- Keys of an association list, in insertion order (Python `d.keys()`). -/
def dkeys {κ α : Type} (d : List (κ × α)) : List κ := d.map Prod.fst

/-- `STRATEGY_WEIGHTS.get(strategy, STRATEGY_WEIGHTS["smart_balance"])`
(`scoring.py` line 189). -/
def getWeights (s : String) : Weights :=
  (dlookup s STRATEGY_WEIGHTS).getD ⟨7/20, 7/20, 3/20, 3/20⟩

/-- `compute_urgency_score` (`scoring.py` lines 66–87), with the source's
`date.today()` made an explicit `today` parameter and dates as integer day
numbers; `none` is a missing or unparseable due date (`_parse_due_date`
returning `None`). -/
def compute_urgency_score (today : Int) (due_date : Option Int) : ℚ :=
  match due_date with
  | none => 3/10
  | some d =>
    let delta_days := d - today
    if delta_days < 0 then 1
    else if delta_days = 0 then 9/10
    else if delta_days ≤ 3 then 4/5
    else if delta_days ≤ 7 then 3/5
    else if delta_days ≤ 14 then 2/5
    else 1/5

/-- `compute_effort_score` (`scoring.py` lines 89–104); `none` models a raw
value on which `float(...)` raises. -/
def compute_effort_score (estimated_hours : Option ℚ) : ℚ :=
  match estimated_hours with
  | none => 1/2
  | some h =>
    if h ≤ 0 then 1/2
    else if h ≤ 1 then 1
    else if h ≤ 3 then 7/10
    else if h ≤ 6 then 2/5
    else 1/5

/-- `normalize_importance` (`scoring.py` lines 107–122); `none` models a raw
value on which `int(...)` raises (non-numeric or missing). -/
def normalize_importance (importance : Option Int) : ℚ :=
  let imp0 := importance.getD 5
  let imp1 := if imp0 < 1 then 1 else imp0
  let imp := if imp1 > 10 then 10 else imp1
  (imp : ℚ) / 10

/-- Three-colour marking used by `detect_cycles`: "white" is absence from
the `visited` dict. -/
inductive Color where
  | gray
  | black
deriving DecidableEq

/-- Python `stack.index(dep)`: index of the first occurrence. -/
def idxOf (x : Int) : List Int → Nat
  | [] => 0
  | y :: ys => if y = x then 0 else idxOf x ys + 1

/-- Python `in_cycle.update(elems)` for an insertion-ordered set. -/
def setUpdate (s : List Int) (elems : List Int) : List Int :=
  elems.foldl (fun acc x => if x ∈ acc then acc else acc ++ [x]) s

/-- The recursive `dfs` helper of `detect_cycles` (`scoring.py` lines
135–148), fuel-indexed.  `stack` is the list the Python code mutates by
`append`/`pop` around the recursive call, hence here it is extended for the
duration of the children only.  On a gray hit the suffix of the stack from
the first occurrence of `dep` is added to `in_cycle`. -/
def dfsVisit (graph : List (Int × List Int)) :
    Nat → Int → List Int → List (Int × Color) × List Int → List (Int × Color) × List Int
  | 0, _, _, st => st
  | fuel + 1, node, stack, st =>
    let st1 := (dinsert node Color.gray st.1, st.2)
    let stack' := stack ++ [node]
    let deps := (dlookup node graph).getD []
    let st2 := deps.foldl (fun acc dep =>
      match dlookup dep acc.1 with
      | none => dfsVisit graph fuel dep stack' acc
      | some Color.gray => (acc.1, setUpdate acc.2 (stack'.drop (idxOf dep stack')))
      | some Color.black => acc) st1
    (dinsert node Color.black st2.1, st2.2)

/-- Fuel bound for the depth-first search: the recursion depth is at most
the number of distinct nodes ever visited, which is at most the number of
keys plus the total length of all dependency lists. -/
def dfsFuel (graph : List (Int × List Int)) : Nat :=
  graph.length + graph.foldl (fun n p => n + p.2.length) 0 + 1

/-- `detect_cycles` (`scoring.py` lines 125–154): builds the edge map
task → dependencies from `tasks_by_id` and runs the three-colour DFS from
every not-yet-visited key, returning the set (as an insertion-ordered
list) of identifiers marked as being in a cycle. -/
def detect_cycles (tasks_by_id : List (Int × Task)) : List Int :=
  let graph : List (Int × List Int) := tasks_by_id.map (fun p => (p.1, p.2.dependencies))
  let final := graph.foldl (fun st p =>
    match dlookup p.1 st.1 with
    | some _ => st
    | none => dfsVisit graph (dfsFuel graph) p.1 [] st) ([], [])
  final.2

/-- Total number of occurrences of `dep` across the dependency lists of the
batch (`dependents_count[dep]` after the counting loop of
`compute_dependency_bonus`, `scoring.py` lines 159–165).  Note this counts
occurrences, so a task listing itself, or listing the same identifier
twice, contributes. -/
def dependentsCount (tasks : List Task) (dep : Int) : Nat :=
  tasks.foldl (fun n t => n + t.dependencies.count dep) 0

/-- The count → bonus mapping of `compute_dependency_bonus`
(`scoring.py` lines 172–179). -/
def bonusOfCount (n : Nat) : ℚ :=
  if n = 0 then 0
  else if n = 1 then 3/10
  else if n ≤ 3 then 3/5
  else 1

/-- The bonus associated with a dict key `t.get("id")`: the count of
`dependents_count.get(tid, 0)` pushed through the mapping.  A `none` key
always gets count 0, because dependency lists contain identifiers only
(`dependents_count.get(None, 0)` is 0). -/
def bonusVal (tasks : List Task) (tid : Option Int) : ℚ :=
  bonusOfCount (match tid with
    | some i => dependentsCount tasks i
    | none => 0)

/-- `compute_dependency_bonus` (`scoring.py` lines 157–181): a dict keyed by
`t.get("id")` (hence `Option Int`: `none` for a task without an `"id"`
key) mapping to the bonus of that identifier's dependents count. -/
def compute_dependency_bonus (tasks : List Task) : List (Option Int × ℚ) :=
  tasks.foldl (fun bonus t => dinsert t.id (bonusVal tasks t.id) bonus) []

/-- Exact banker's rounding of a rational to an integer
(round-half-to-even, the rounding mode of Python's `round`). -/
def bankersRound (q : ℚ) : Int :=
  let f := ⌊q⌋
  let r := q - (f : ℚ)
  if r < 1/2 then f
  else if 1/2 < r then f + 1
  else if f % 2 = 0 then f else f + 1

/-- Python `round(x, 3)`, modelled exactly over ℚ. -/
def round3 (q : ℚ) : ℚ := (bankersRound (q * 1000) : ℚ) / 1000

/-- `{t["id"]: t for t in tasks if "id" in t}` (`scoring.py` lines 192–194). -/
def tasksById (tasks : List Task) : List (Int × Task) :=
  tasks.foldl (fun d t =>
    match t.id with
    | some i => dinsert i t d
    | none => d) []

/-- Whether `tid in cycles` holds for a (possibly missing) identifier; in
Python `None in cycles` is `False` for a set of identifiers. -/
def idInCycles (tid : Option Int) (cycles : List Int) : Bool :=
  match tid with
  | some i => decide (i ∈ cycles)
  | none => false

/-- The explanation string built from the fired thresholds
(`scoring.py` lines 221–250). -/
def explanationFor (urgency importance effort deps : ℚ) (inCyc : Bool) : String :=
  let parts : List String :=
    (if urgency ≥ 4/5 then ["Due very soon"]
     else if urgency ≥ 3/5 then ["Upcoming deadline"] else []) ++
    (if importance ≥ 4/5 then ["Very important"]
     else if importance ≥ 3/5 then ["Important"] else []) ++
    (if effort ≥ 7/10 then ["Quick win"]
     else if effort ≤ 3/10 then ["Large effort task"] else []) ++
    (if deps > 0 then ["Unblocks other tasks"] else []) ++
    (if inCyc then ["Part of circular dependency (penalized)"] else [])
  if parts = [] then
    "Balanced priority based on urgency, importance, effort, and dependencies."
  else
    String.intercalate "; " parts

/-- Scoring of a single task: the body of the first `for t in tasks` loop of
`score_tasks` (`scoring.py` lines 202–256). -/
def scoreOne (today : Int) (w : Weights) (cycles : List Int)
    (bonus : List (Option Int × ℚ)) (t : Task) : ScoredTask :=
  let urgency := compute_urgency_score today t.due_date
  let importance := normalize_importance t.importance
  let effort := compute_effort_score t.estimated_hours
  let deps := (dlookup t.id bonus).getD 0
  let base := urgency * w.urgency + importance * w.importance
      + effort * w.effort + deps * w.deps
  let inCyc := idInCycles t.id cycles
  let base := if inCyc then base - 1/5 else base
  ⟨t, round3 base, explanationFor urgency importance effort deps inCyc⟩

/-- The fully scored list (`scored` in the source), for a given weight row. -/
def scoredOf (today : Int) (tasks : List Task) (w : Weights) : List ScoredTask :=
  tasks.map (scoreOne today w (detect_cycles (tasksById tasks)) (compute_dependency_bonus tasks))

/-- `{t["id"]: t for t in scored if "id" in t}` (`scoring.py` lines 258–260). -/
def scoredById (today : Int) (tasks : List Task) (w : Weights) : List (Int × ScoredTask) :=
  (scoredOf today tasks w).foldl (fun d st =>
    match st.task.id with
    | some i => dinsert i st d
    | none => d) []

/-- `non_cycle_ids` (`scoring.py` line 262). -/
def nonCycleIds (today : Int) (tasks : List Task) (w : Weights) : List Int :=
  (dkeys (scoredById today tasks w)).filter
    (fun tid => !(decide (tid ∈ detect_cycles (tasksById tasks))))

/-- `cycle_ids` (`scoring.py` line 263). -/
def cycleIdsOf (today : Int) (tasks : List Task) (w : Weights) : List Int :=
  (dkeys (scoredById today tasks w)).filter
    (fun tid => decide (tid ∈ detect_cycles (tasksById tasks)))

/-- `tasks_by_id.get(tid, {}).get("dependencies") or []` (`scoring.py`
lines 270–271). -/
def depsOfIn (tasks : List Task) (tid : Int) : List Int :=
  match dlookup tid (tasksById tasks) with
  | some t => t.dependencies
  | none => []

/-- Pointwise update of a total function, modelling mutation of one dict
entry. -/
def fupd {α : Type} (f : Int → α) (k : Int) (v : α) : Int → α :=
  fun x => if x = k then v else f x

/-- Construction of the `indegree` and `adj` dicts over `non_cycle_ids`
(`scoring.py` lines 266–275), as total functions; a dependency is counted
only when it is itself one of the keys (`if dep in indegree`). -/
def graphFold (nc : List Int) (depsOf : Int → List Int) : (Int → Int) × (Int → List Int) :=
  nc.foldl (fun p tid =>
    (depsOf tid).foldl (fun q dep =>
      if dep ∈ nc then
        (fupd q.1 tid (q.1 tid + 1), fupd q.2 dep (q.2 dep ++ [tid]))
      else q) p)
    (fun _ => 0, fun _ => [])

/-- `scored_by_id[_tid].get("score", 0.0)`, the sorting/selection key. -/
def scoreKey (sbi : List (Int × ScoredTask)) (tid : Int) : ℚ :=
  match dlookup tid sbi with
  | some st => st.score
  | none => 0

/-- Python `max(available, key=...)`: the first element attaining the
maximal key. -/
def maxByScore (score : Int → ℚ) (a : Int) (rest : List Int) : Int :=
  rest.foldl (fun b x => if score b < score x then x else b) a

/-- The inner `for nxt in adj.get(best_id, [])` loop of the ordering phase
(`scoring.py` lines 293–296): decrement in-degrees and append the tasks
that reach zero to `available`. -/
def stepNeighbors (ns : List Int) (indeg : Int → Int) (avail : List Int) :
    (Int → Int) × List Int :=
  ns.foldl (fun p nxt =>
    let ind := fupd p.1 nxt (p.1 nxt - 1)
    (ind, if ind nxt = 0 then p.2 ++ [nxt] else p.2)) (indeg, avail)

/-- The `while available` loop of the ordering phase (`scoring.py` lines
284–296), fuel-indexed: pick the first highest-score available task, emit
it, process its dependents. -/
def kahnLoop (score : Int → ℚ) (adj : Int → List Int) :
    Nat → (Int → Int) → List Int → List Int → List Int
  | 0, _, _, ordered => ordered
  | _ + 1, _, [], ordered => ordered
  | fuel + 1, indeg, a :: rest, ordered =>
    let best := maxByScore score a rest
    let avail' := (a :: rest).erase best
    let next := stepNeighbors (adj best) indeg avail'
    kahnLoop score adj fuel next.1 next.2 (ordered ++ [best])

/-- `ordered_ids`: result of the score-guided Kahn elimination
(`scoring.py` lines 277–296).  Each identifier enters `available` at most
once, so `|non_cycle_ids| + 1` units of fuel strictly dominate the number
of iterations of the Python `while` loop. -/
def orderedIds (today : Int) (tasks : List Task) (w : Weights) : List Int :=
  kahnLoop (scoreKey (scoredById today tasks w))
    (graphFold (nonCycleIds today tasks w) (depsOfIn tasks)).2
    ((nonCycleIds today tasks w).length + 1)
    (graphFold (nonCycleIds today tasks w) (depsOfIn tasks)).1
    ((nonCycleIds today tasks w).filter (fun tid =>
      decide ((graphFold (nonCycleIds today tasks w) (depsOfIn tasks)).1 tid = 0)))
    []

/-- The in-batch, non-cyclic dependencies of an identifier: exactly the
edges the ordering phase counts (`if dep in indegree`). -/
def rdepsOf (today : Int) (tasks : List Task) (w : Weights) (tid : Int) : List Int :=
  (depsOfIn tasks tid).filter (fun d => decide (d ∈ nonCycleIds today tasks w))

/-- Stable insertion for a descending sort by score: `x` goes after every
already-placed element of greater-or-equal score. -/
def insertDesc (score : Int → ℚ) (x : Int) : List Int → List Int
  | [] => [x]
  | y :: ys => if score y < score x then x :: y :: ys else y :: insertDesc score x ys

/-- Python's stable `list.sort(key=score, reverse=True)`: a stable
descending sort (stable sorts with the same comparator agree, so insertion
sort is an exact model of Timsort here). -/
def sortDescByScore (score : Int → ℚ) (l : List Int) : List Int :=
  l.foldl (fun acc x => insertDesc score x acc) []

/-- `remaining_non_cycle`, already sorted by descending score
(`scoring.py` lines 299–305). -/
def leftoverSorted (today : Int) (tasks : List Task) (w : Weights) : List Int :=
  sortDescByScore (scoreKey (scoredById today tasks w))
    ((nonCycleIds today tasks w).filter
      (fun tid => !(decide (tid ∈ orderedIds today tasks w))))

/-- `cycle_ids` after its descending sort (`scoring.py` lines 308–311). -/
def cycleSorted (today : Int) (tasks : List Task) (w : Weights) : List Int :=
  sortDescByScore (scoreKey (scoredById today tasks w)) (cycleIdsOf today tasks w)

/-- `final_order_ids = ordered_ids + remaining_non_cycle + cycle_ids`
(`scoring.py` line 313). -/
def finalOrderIds (today : Int) (tasks : List Task) (w : Weights) : List Int :=
  orderedIds today tasks w ++ leftoverSorted today tasks w ++ cycleSorted today tasks w

/-- Placeholder record used to totalize the `scored_by_id[tid]` lookup; it
is never produced, since every emitted identifier is a key of
`scored_by_id`. -/
def defaultScored : ScoredTask := ⟨⟨none, none, none, none, []⟩, 0, ""⟩

/-- `score_tasks` (`scoring.py` lines 185–316), with `date.today()` passed
explicitly as `today`. -/
def score_tasks (today : Int) (tasks : List Task) (strategy : String) : List ScoredTask :=
  let w := getWeights strategy
  (finalOrderIds today tasks w).map
    (fun tid => (dlookup tid (scoredById today tasks w)).getD defaultScored)

/-! ## The request-handling layer (`tasks/views.py`) -/

/-- The JSON value found under the `"tasks"` key of a request body.  A
dict payload is represented by its list of keys (iterating a Python dict
yields its keys), a string payload by the string (iterating it yields its
characters). -/
inductive ReqVal where
  | vlist (ts : List Task)
  | vdict (keyList : List String)
  | vstr (s : String)
  | vint (n : Int)
  | vbool (b : Bool)
  | vnull
deriving DecidableEq

/-- Outcome of a view: a 200 response carrying scored tasks, an explicit
4xx client-error response, or an exception escaping the view (which the
framework turns into a 500 server error). -/
inductive ApiResult where
  | ok (tasks : List ScoredTask)
  | clientError (code : Nat) (message : String)
  | serverError (exc : String)
deriving DecidableEq

/-- The id-defaulting loop shared by both views (`views.py` lines 17–21 and
30–34): `t.setdefault('id', idx + 1)` with `idx` 0-based. -/
def normalizeTasks (ts : List Task) : List Task :=
  ts.enum.map (fun p => { p.2 with id := some (p.2.id.getD ((p.1 : Int) + 1)) })

/-- `AnalyzeTasksView.post` (`views.py` lines 8–24): non-list payloads are
rejected with HTTP 400 before the engine is called. -/
def analyzePost (today : Int) (strategy : String) (tasksData : ReqVal) : ApiResult :=
  match tasksData with
  | .vlist ts => .ok (score_tasks today (normalizeTasks ts) strategy)
  | _ => .clientError 400 "tasks must be a list"

/-- `SuggestTasksView.post` (`views.py` lines 26–37).  This view performs
no `isinstance(tasks_data, list)` check: it runs `enumerate(tasks_data)`
and `dict(t)` directly.  For a non-iterable payload (number, bool, null)
`enumerate` raises `TypeError`; for a non-empty dict or string the first
iterated element makes `dict(t)` raise; either exception escapes the view
as a server error.  An empty dict or empty string iterates zero times, so
the engine is called on the empty list and a 200 response is returned. -/
def suggestPost (today : Int) (strategy : String) (tasksData : ReqVal) : ApiResult :=
  match tasksData with
  | .vlist ts => .ok ((score_tasks today (normalizeTasks ts) strategy).take 3)
  | .vdict [] => .ok ((score_tasks today [] strategy).take 3)
  | .vdict (_ :: _) => .serverError "ValueError from dict(t) on a dict key"
  | .vstr s =>
    if s.isEmpty then .ok ((score_tasks today [] strategy).take 3)
    else .serverError "ValueError from dict(t) on a character"
  | .vint _ => .serverError "TypeError from enumerate"
  | .vbool _ => .serverError "TypeError from enumerate"
  | .vnull => .serverError "TypeError from enumerate"

/-! ## Concrete example batches and auxiliary predicates used by the theorems -/

/-- A task whose dict has no `"id"` key. -/
def taskNoId : Task := { id := none }

def cycTaskA : Task := { id := some 1, dependencies := [2] }
def cycTaskB : Task := { id := some 2, dependencies := [3] }
def cycTaskC : Task := { id := some 3, dependencies := [1] }
def cycTaskD : Task := { id := some 4 }

/-- Spec-following (claim C7) counting: the number of OTHER tasks of the
batch that list `t`'s identifier as a dependency.  This is what the claim
says the bonus is computed from; it is compared against the source's
occurrence count `dependentsCount`. -/
def specOtherListers (tasks : List Task) (t : Task) : Nat :=
  (tasks.filter (fun u =>
    decide (u ≠ t) &&
    match t.id with
    | some i => decide (i ∈ u.dependencies)
    | none => false)).length

/-- The self-dependent task used to refute C7 as stated. -/
def selfDepTask : Task := { id := some 1, dependencies := [1] }

def fourListersBatch : List Task :=
  [{ id := some 100 }, { id := some 11, dependencies := [100] },
   { id := some 12, dependencies := [100] }, { id := some 13, dependencies := [100] },
   { id := some 14, dependencies := [100] }]

/-- The unpenalized weighted composite of a task, written over the task's
own fields (`base_score` before the cycle penalty, `scoring.py` lines
210–215). -/
def compositeScore (today : Int) (tasks : List Task) (strategy : String) (t : Task) : ℚ :=
  compute_urgency_score today t.due_date * (getWeights strategy).urgency
  + normalize_importance t.importance * (getWeights strategy).importance
  + compute_effort_score t.estimated_hours * (getWeights strategy).effort
  + (dlookup t.id (compute_dependency_bonus tasks)).getD 0 * (getWeights strategy).deps

/-- Self-looping, far-future, unimportant, heavyweight task: its composite
is 0.18 and its penalized score −0.02, exhibiting an unclamped negative
cyclic score. -/
def negTask : Task :=
  { id := some 5, due_date := some 100, importance := some 1,
    estimated_hours := some 10, dependencies := [5] }

/-- The ScoredTask the engine produces for `negTask`. -/
def negScored : ScoredTask :=
  scoreOne 0 (getWeights "smart_balance") (detect_cycles (tasksById [negTask]))
    (compute_dependency_bonus [negTask]) negTask

/-- Precedence within an emitted list: every restricted dependency of the
`n`-th element occurs strictly earlier. -/
def KPrec (rdeps : Int → List Int) (l : List Int) : Prop :=
  ∀ n (h : n < l.length) d, d ∈ rdeps (l.get ⟨n, h⟩) → d ∈ l.take n

/-- Invariant of the score-guided Kahn elimination loop: in-degrees count
the not-yet-emitted restricted dependencies; `avail` is duplicate-free,
within the key set, has in-degree 0 (all dependencies emitted) and is
disjoint from `ordered`; and `ordered` satisfies the precedence property. -/
def KInv (nc : List Int) (rdeps : Int → List Int) (indeg : Int → Int)
    (avail ordered : List Int) : Prop :=
  (∀ t ∈ nc, indeg t = (((rdeps t).filter (fun d => !decide (d ∈ ordered))).length : ℤ))
  ∧ avail.Nodup
  ∧ (∀ t ∈ avail, t ∈ nc)
  ∧ (∀ t ∈ ordered, t ∈ nc)
  ∧ (∀ t ∈ avail, indeg t = 0)
  ∧ (∀ t ∈ avail, t ∉ ordered)
  ∧ KPrec rdeps ordered

/-- The spec §8 scenario: task 2 depends on task 1. -/
def taskS1 : Task := { id := some 1, importance := some 5, estimated_hours := some 2 }

def taskS2 : Task :=
  { id := some 2, due_date := some 0, importance := some 9,
    estimated_hours := some (1/2), dependencies := [1] }

/-! ## Basic dictionary lemmas -/

theorem dlookup_dinsert {κ α : Type} [DecidableEq κ] (k k' : κ) (v : α)
    (d : List (κ × α)) :
    dlookup k (dinsert k' v d) = if k' = k then some v else dlookup k d := by
  induction d with
  | nil => simp [dinsert, dlookup]
  | cons p rest ih =>
    by_cases h : p.1 = k'
    · simp only [dinsert, dlookup, h, if_pos rfl]
      by_cases hk : k' = k <;> simp [dlookup, hk]
    · simp only [dinsert, dlookup, if_neg h]
      by_cases hk : p.1 = k
      · subst hk
        have : ¬ k' = p.1 := fun he => h he.symm
        simp [dlookup, this, if_pos rfl]
      · simp [dlookup, hk, ih]

/-- Lookup in the dependency-bonus dict: any task of the batch is bound to
the bonus of its identifier's dependents count. -/
theorem dlookup_bonus_fold (full : List Task) (tasks : List Task)
    (d : List (Option Int × ℚ)) (k : Option Int) :
    dlookup k (tasks.foldl (fun bonus t => dinsert t.id (bonusVal full t.id) bonus) d) =
      if (∃ t ∈ tasks, t.id = k) then some (bonusVal full k) else dlookup k d := by
  induction tasks generalizing d with
  | nil => simp
  | cons t rest ih =>
    simp only [List.foldl_cons, ih, dlookup_dinsert]
    by_cases hex : ∃ u ∈ rest, u.id = k
    · simp [hex]
    · by_cases hk : t.id = k
      · subst hk
        simp [hex]
      · simp [hex, hk]

theorem compute_dependency_bonus_lookup (tasks : List Task) (t : Task)
    (ht : t ∈ tasks) :
    dlookup t.id (compute_dependency_bonus tasks) = some (bonusVal tasks t.id) := by
  unfold compute_dependency_bonus
  rw [dlookup_bonus_fold]
  have hex : ∃ u ∈ tasks, u.id = t.id := ⟨t, ht, rfl⟩
  rw [if_pos hex]

/-! ## C1: a task without a usable identifier is dropped from the output -/

/-- C1 (code bug): `score_tasks` does NOT preserve cardinality for tasks
lacking an identifier.  On the batch `[{}]` (one task, no `"id"` key) the
output is empty: the task is scored, but the output is assembled from
`scored_by_id`, which only holds tasks with an `"id"` key, so the task is
silently dropped — contradicting the claim, spec §3/§4.5 ("must not be
silently dropped") and the source's own comment on line 298, which expects
missing-ID tasks to surface through the leftover path. -/
theorem score_tasks_drops_missing_id :
    score_tasks 0 [taskNoId] "smart_balance" = [] := by decide

/-! ## C4: three-colour cycle detection on the A→B→C→A plus isolated D batch -/

/-- C4: on the batch A→B, B→C, C→A with an isolated D, the three-colour
depth-first traversal of `detect_cycles` (which, on re-encountering a gray
node, marks the whole recursion-stack suffix from that node's first
occurrence) returns a cycle set containing A, B and C and not D. -/
theorem detect_cycles_three_cycle :
    1 ∈ detect_cycles (tasksById [cycTaskA, cycTaskB, cycTaskC, cycTaskD])
    ∧ 2 ∈ detect_cycles (tasksById [cycTaskA, cycTaskB, cycTaskC, cycTaskD])
    ∧ 3 ∈ detect_cycles (tasksById [cycTaskA, cycTaskB, cycTaskC, cycTaskD])
    ∧ 4 ∉ detect_cycles (tasksById [cycTaskA, cycTaskB, cycTaskC, cycTaskD]) := by
  decide

/-! ## C5: non-list payload handling in the two endpoints -/

/-- C5 (code bug): for the non-list payload `5`, the full-analysis endpoint
rejects with a 400 client error, but the suggestion endpoint performs no
list check at all: `enumerate(5)` raises an uncaught `TypeError`, which
surfaces as a 500 server error, not a client-error rejection. -/
theorem suggest_does_not_reject_non_list :
    analyzePost 0 "smart_balance" (ReqVal.vint 5)
      = ApiResult.clientError 400 "tasks must be a list"
    ∧ suggestPost 0 "smart_balance" (ReqVal.vint 5)
      = ApiResult.serverError "TypeError from enumerate" := by
  exact ⟨rfl, rfl⟩

/-! ## C6: the engine is a pure function of (tasks, strategy, now) -/

/-- C6: the embedded engine is a pure function: two invocations with
identical task lists, identical strategy and the same "now" yield
identical output (scores and ordering), with no dependence on I/O or
hidden state — the only impurity of the source, `date.today()`, is the
explicit `today` parameter here. -/
theorem score_tasks_deterministic (today₁ today₂ : Int)
    (tasks₁ tasks₂ : List Task) (strategy₁ strategy₂ : String)
    (ht : tasks₁ = tasks₂) (hs : strategy₁ = strategy₂) (hd : today₁ = today₂) :
    score_tasks today₁ tasks₁ strategy₁ = score_tasks today₂ tasks₂ strategy₂ := by
  rw [ht, hs, hd]

theorem score_tasks_deterministic_witness :
    score_tasks 0 [cycTaskA] "smart_balance" = score_tasks 0 [cycTaskA] "smart_balance" :=
  score_tasks_deterministic 0 0 [cycTaskA] [cycTaskA] "smart_balance" "smart_balance"
    rfl rfl rfl

/-! ## C7: the dependency bonus counts dependency-list entries, not other tasks -/

/-- C7 counterexample: in the batch `[{id: 1, dependencies: [1]}]` no
OTHER task lists 1 as a dependency, so the claim demands the bonus 0.0;
the code counts the task's own self-reference and yields 0.3. -/
theorem dependency_bonus_counts_self :
    (dlookup (Task.id selfDepTask) (compute_dependency_bonus [selfDepTask])).getD 0 = 3/10
    ∧ bonusOfCount (specOtherListers [selfDepTask] selfDepTask) = 0
    ∧ ((3 : ℚ)/10 ≠ 0) := by
  exact ⟨rfl, rfl, by norm_num⟩

/-- C7 (amended): the bonus of each task of the batch is determined by the
total number of dependency-list entries across the batch (the task itself
included, duplicate entries counted separately) naming its identifier,
mapped through 0→0.0, 1→0.3, 2 or 3→0.6, ≥4→1.0 (`bonusOfCount` applied
to `dependentsCount`, which is what `bonusVal` is). -/
theorem compute_dependency_bonus_spec (tasks : List Task) (t : Task) (ht : t ∈ tasks) :
    (dlookup t.id (compute_dependency_bonus tasks)).getD 0 = bonusVal tasks t.id := by
  rw [compute_dependency_bonus_lookup tasks t ht]
  rfl

theorem compute_dependency_bonus_spec_witness :
    (dlookup (some 100) (compute_dependency_bonus fourListersBatch)).getD 0 = 1
    ∧ (dlookup (some 11) (compute_dependency_bonus fourListersBatch)).getD 0 = 0 := by
  constructor
  · have h := compute_dependency_bonus_spec fourListersBatch
      { id := some 100 } (by decide)
    exact h.trans (by decide)
  · have h := compute_dependency_bonus_spec fourListersBatch
      { id := some 11, dependencies := [100] } (by decide)
    exact h.trans (by decide)

/-! ## C8: normalize_importance is total with default 5, clamping and /10 -/

/-- C8: `normalize_importance` is total (every input, including the `none`
that models a non-numeric or missing rating, produces a value): rating 0
clamps to 1 and yields 0.1, rating 15 clamps to 10 and yields 1.0, a
non-numeric rating defaults to 5 and yields 0.5, and every output lies in
[1/10, 1]. -/
theorem normalize_importance_spec :
    normalize_importance (some 0) = 1/10
    ∧ normalize_importance (some 15) = 1
    ∧ normalize_importance none = 1/2
    ∧ ∀ x : Option Int, 1/10 ≤ normalize_importance x ∧ normalize_importance x ≤ 1 := by
  refine ⟨by norm_num [normalize_importance], by norm_num [normalize_importance],
    by norm_num [normalize_importance], ?_⟩
  intro x
  unfold normalize_importance
  set imp0 := x.getD 5 with h0
  have hb : (1 : ℤ) ≤ (if (if imp0 < 1 then 1 else imp0) > 10 then 10
      else if imp0 < 1 then 1 else imp0)
      ∧ (if (if imp0 < 1 then 1 else imp0) > 10 then 10
      else if imp0 < 1 then 1 else imp0) ≤ 10 := by
    split_ifs <;> omega
  have h1 : ((1 : ℤ) : ℚ) ≤ ((if (if imp0 < 1 then 1 else imp0) > 10 then 10
      else if imp0 < 1 then 1 else imp0 : ℤ) : ℚ) := by exact_mod_cast hb.1
  have h2 : ((if (if imp0 < 1 then 1 else imp0) > 10 then 10
      else if imp0 < 1 then 1 else imp0 : ℤ) : ℚ) ≤ ((10 : ℤ) : ℚ) := by
    exact_mod_cast hb.2
  constructor
  · push_cast at h1 ⊢
    linarith
  · push_cast at h2 ⊢
    linarith

/-! ## C9: unknown strategy names silently fall back to smart_balance -/

theorem getWeights_unknown (s : String)
    (h1 : s ≠ "fastest_wins") (h2 : s ≠ "high_impact")
    (h3 : s ≠ "deadline_driven") (h4 : s ≠ "smart_balance") :
    getWeights s = getWeights "smart_balance" := by
  have n1 : ¬ ("fastest_wins" = s) := fun he => h1 he.symm
  have n2 : ¬ ("high_impact" = s) := fun he => h2 he.symm
  have n3 : ¬ ("deadline_driven" = s) := fun he => h3 he.symm
  have n4 : ¬ ("smart_balance" = s) := fun he => h4 he.symm
  simp [getWeights, STRATEGY_WEIGHTS, dlookup, n1, n2, n3, n4]

/-- C9: for any strategy name other than the four named ones,
`score_tasks` silently produces exactly the result it produces for
`smart_balance`: the name is only ever used for the weight lookup, whose
default is the `smart_balance` row. -/
theorem score_tasks_unknown_strategy (today : Int) (tasks : List Task) (s : String)
    (h1 : s ≠ "fastest_wins") (h2 : s ≠ "high_impact")
    (h3 : s ≠ "deadline_driven") (h4 : s ≠ "smart_balance") :
    score_tasks today tasks s = score_tasks today tasks "smart_balance" := by
  unfold score_tasks
  rw [getWeights_unknown s h1 h2 h3 h4]

theorem score_tasks_unknown_strategy_witness :
    score_tasks 0 [cycTaskA, cycTaskD] "bogus"
      = score_tasks 0 [cycTaskA, cycTaskD] "smart_balance" :=
  score_tasks_unknown_strategy 0 [cycTaskA, cycTaskD] "bogus"
    (by decide) (by decide) (by decide) (by decide)

/-! ## Arithmetic structure of the composite score

Every normalized signal is an integer number of tenths and every weight an
integer number of hundredths, so the weighted composite is an exact
multiple of 1/1000 and Python's `round(x, 3)` leaves it unchanged. -/

theorem compute_urgency_tenths (today : Int) (due : Option Int) :
    ∃ k : ℤ, compute_urgency_score today due = (k : ℚ)/10 ∧ 2 ≤ k ∧ k ≤ 10 := by
  unfold compute_urgency_score
  match due with
  | none => exact ⟨3, by norm_num⟩
  | some d =>
    simp only
    split_ifs
    · exact ⟨10, by norm_num⟩
    · exact ⟨9, by norm_num⟩
    · exact ⟨8, by norm_num⟩
    · exact ⟨6, by norm_num⟩
    · exact ⟨4, by norm_num⟩
    · exact ⟨2, by norm_num⟩

theorem compute_effort_tenths (h : Option ℚ) :
    ∃ k : ℤ, compute_effort_score h = (k : ℚ)/10 ∧ 2 ≤ k ∧ k ≤ 10 := by
  unfold compute_effort_score
  match h with
  | none => exact ⟨5, by norm_num⟩
  | some q =>
    simp only
    split_ifs
    · exact ⟨5, by norm_num⟩
    · exact ⟨10, by norm_num⟩
    · exact ⟨7, by norm_num⟩
    · exact ⟨4, by norm_num⟩
    · exact ⟨2, by norm_num⟩

theorem normalize_importance_tenths (x : Option Int) :
    ∃ k : ℤ, normalize_importance x = (k : ℚ)/10 ∧ 1 ≤ k ∧ k ≤ 10 := by
  unfold normalize_importance
  refine ⟨_, rfl, ?_⟩
  split_ifs <;> omega

theorem bonusOfCount_tenths (n : Nat) :
    ∃ k : ℤ, bonusOfCount n = (k : ℚ)/10 ∧ 0 ≤ k ∧ k ≤ 10 := by
  unfold bonusOfCount
  split_ifs
  · exact ⟨0, by norm_num⟩
  · exact ⟨3, by norm_num⟩
  · exact ⟨6, by norm_num⟩
  · exact ⟨10, by norm_num⟩

theorem bonusVal_tenths (tasks : List Task) (k0 : Option Int) :
    ∃ k : ℤ, bonusVal tasks k0 = (k : ℚ)/10 ∧ 0 ≤ k ∧ k ≤ 10 := by
  cases k0 with
  | none => exact bonusOfCount_tenths 0
  | some i => exact bonusOfCount_tenths (dependentsCount tasks i)

theorem bonus_lookup_tenths (tasks : List Task) (k0 : Option Int) :
    ∃ k : ℤ, (dlookup k0 (compute_dependency_bonus tasks)).getD 0 = (k : ℚ)/10
      ∧ 0 ≤ k ∧ k ≤ 10 := by
  unfold compute_dependency_bonus
  rw [dlookup_bonus_fold]
  by_cases hex : ∃ t ∈ tasks, t.id = k0
  · rw [if_pos hex]
    obtain ⟨k, hk, h0, h10⟩ := bonusVal_tenths tasks k0
    exact ⟨k, by simpa using hk, h0, h10⟩
  · rw [if_neg hex]
    exact ⟨0, by norm_num [dlookup]⟩

theorem getWeights_cases (s : String) :
    getWeights s = ⟨1/5, 1/5, 1/2, 1/10⟩ ∨ getWeights s = ⟨1/5, 3/5, 1/10, 1/10⟩
    ∨ getWeights s = ⟨3/5, 1/5, 1/10, 1/10⟩ ∨ getWeights s = ⟨7/20, 7/20, 3/20, 3/20⟩ := by
  unfold getWeights
  simp only [STRATEGY_WEIGHTS, dlookup]
  split_ifs <;> simp

theorem getWeights_hundredths (s : String) :
    ∃ a b c d : ℤ, 0 ≤ a ∧ 0 ≤ b ∧ 0 ≤ c ∧ 0 ≤ d ∧ a + b + c + d = 100
      ∧ getWeights s = ⟨(a : ℚ)/100, (b : ℚ)/100, (c : ℚ)/100, (d : ℚ)/100⟩ := by
  rcases getWeights_cases s with h | h | h | h
  · exact ⟨20, 20, 50, 10, by norm_num, by norm_num, by norm_num, by norm_num,
      by norm_num, by rw [h]; congr 1 <;> norm_num⟩
  · exact ⟨20, 60, 10, 10, by norm_num, by norm_num, by norm_num, by norm_num,
      by norm_num, by rw [h]; congr 1 <;> norm_num⟩
  · exact ⟨60, 20, 10, 10, by norm_num, by norm_num, by norm_num, by norm_num,
      by norm_num, by rw [h]; congr 1 <;> norm_num⟩
  · exact ⟨35, 35, 15, 15, by norm_num, by norm_num, by norm_num, by norm_num,
      by norm_num, by rw [h]; congr 1 <;> norm_num⟩

theorem compositeScore_decomp (today : Int) (tasks : List Task) (strategy : String)
    (t : Task) :
    ∃ m : ℤ, 0 ≤ m ∧ m ≤ 1000 ∧ compositeScore today tasks strategy t = (m : ℚ)/1000 := by
  obtain ⟨ku, hu, hu2, hu10⟩ := compute_urgency_tenths today t.due_date
  obtain ⟨ki, hi, hi1, hi10⟩ := normalize_importance_tenths t.importance
  obtain ⟨ke, he, he2, he10⟩ := compute_effort_tenths t.estimated_hours
  obtain ⟨kd, hd, hd0, hd10⟩ := bonus_lookup_tenths tasks t.id
  obtain ⟨a, b, c, d, ha, hb, hc, hd', hsum, hw⟩ := getWeights_hundredths strategy
  refine ⟨ku * a + ki * b + ke * c + kd * d, ?_, ?_, ?_⟩
  · have h1 : 0 ≤ ku * a := mul_nonneg (by omega) ha
    have h2 : 0 ≤ ki * b := mul_nonneg (by omega) hb
    have h3 : 0 ≤ ke * c := mul_nonneg (by omega) hc
    have h4 : 0 ≤ kd * d := mul_nonneg (by omega) hd'
    omega
  · have h1 : ku * a ≤ 10 * a := mul_le_mul_of_nonneg_right hu10 ha
    have h2 : ki * b ≤ 10 * b := mul_le_mul_of_nonneg_right hi10 hb
    have h3 : ke * c ≤ 10 * c := mul_le_mul_of_nonneg_right he10 hc
    have h4 : kd * d ≤ 10 * d := mul_le_mul_of_nonneg_right hd10 hd'
    omega
  · unfold compositeScore
    rw [hu, hi, he, hd, hw]
    push_cast
    ring

theorem round3_thousandth (m : ℤ) : round3 ((m : ℚ)/1000) = (m : ℚ)/1000 := by
  unfold round3 bankersRound
  have h : ((m : ℚ)/1000) * 1000 = (m : ℚ) := by field_simp
  rw [h]
  simp only [Int.floor_intCast]
  rw [if_pos (by norm_num : ((m : ℚ) - (m : ℚ) : ℚ) < 1/2)]

/-- The output score of `scoreOne`, written via `compositeScore`. -/
theorem scoreOne_score_eq (today : Int) (tasks : List Task) (strategy : String) (t : Task) :
    (scoreOne today (getWeights strategy) (detect_cycles (tasksById tasks))
        (compute_dependency_bonus tasks) t).score
      = round3 (if idInCycles t.id (detect_cycles (tasksById tasks)) then
          compositeScore today tasks strategy t - 1/5
        else compositeScore today tasks strategy t) := by
  unfold scoreOne compositeScore
  by_cases h : idInCycles t.id (detect_cycles (tasksById tasks)) <;> simp [h]

/-- Every element of the output of `score_tasks` is either the impossible
placeholder (`defaultScored`, whose identifier is `none`) or the `scoreOne`
image of some input task. -/
theorem dlookup_scored_fold (l : List ScoredTask) (d : List (Int × ScoredTask))
    (k : Int) (v : ScoredTask)
    (h : dlookup k (l.foldl (fun acc st =>
        match st.task.id with
        | some i => dinsert i st acc
        | none => acc) d) = some v) :
    v ∈ l ∨ dlookup k d = some v := by
  induction l generalizing d with
  | nil => exact Or.inr h
  | cons st rest ih =>
    simp only [List.foldl_cons] at h
    rcases ih _ h with hv | hv
    · exact Or.inl (List.mem_cons_of_mem _ hv)
    · match hid : st.task.id with
      | some i =>
        rw [hid] at hv
        rw [dlookup_dinsert] at hv
        by_cases hik : i = k
        · rw [if_pos hik] at hv
          exact Or.inl (by simp [← Option.some_inj.mp hv])
        · rw [if_neg hik] at hv
          exact Or.inr hv
      | none =>
        rw [hid] at hv
        exact Or.inr hv

theorem mem_score_tasks (today : Int) (tasks : List Task) (strategy : String)
    (st : ScoredTask) (hmem : st ∈ score_tasks today tasks strategy) :
    st = defaultScored
    ∨ ∃ t ∈ tasks, st = scoreOne today (getWeights strategy)
        (detect_cycles (tasksById tasks)) (compute_dependency_bonus tasks) t := by
  unfold score_tasks at hmem
  simp only [List.mem_map] at hmem
  obtain ⟨tid, _, hst⟩ := hmem
  match hl : dlookup tid (scoredById today tasks (getWeights strategy)) with
  | none =>
    rw [hl] at hst
    exact Or.inl hst.symm
  | some v =>
    rw [hl] at hst
    simp only [Option.getD_some] at hst
    subst hst
    rcases dlookup_scored_fold _ _ _ _ hl with hv | hv
    · right
      unfold scoredOf at hv
      simp only [List.mem_map] at hv
      obtain ⟨t, ht, hv⟩ := hv
      exact ⟨t, ht, hv.symm⟩
    · simp [dlookup] at hv

/-! ## C3: exact cycle penalty of 0.2, unclamped -/

/-- C3: every output task whose identifier is in the cycle set has score
equal to the strategy-weighted composite minus exactly 0.2 — the rounding
to 3 decimal places is exact here (all signals are tenths and all weights
hundredths), so no clamping occurs and the score can go negative (see the
witness, where it is −0.02). -/
theorem cyclic_score_exact (today : Int) (tasks : List Task) (strategy : String)
    (st : ScoredTask) (i : Int)
    (hmem : st ∈ score_tasks today tasks strategy)
    (hid : st.task.id = some i)
    (hcyc : i ∈ detect_cycles (tasksById tasks)) :
    st.score = round3 (compositeScore today tasks strategy st.task - 1/5)
    ∧ st.score = compositeScore today tasks strategy st.task - 1/5 := by
  rcases mem_score_tasks today tasks strategy st hmem with hdef | ⟨t, ht, hst⟩
  · rw [hdef] at hid
    exact absurd hid (by simp [defaultScored])
  · have htask : st.task = t := by rw [hst]; rfl
    have hic : idInCycles t.id (detect_cycles (tasksById tasks)) = true := by
      rw [← htask, hid]
      simp [idInCycles, hcyc]
    have hsc : st.score = round3 (compositeScore today tasks strategy t - 1/5) := by
      rw [hst, scoreOne_score_eq, hic]
      simp
    obtain ⟨m, _, _, hm⟩ := compositeScore_decomp today tasks strategy t
    have hsub : compositeScore today tasks strategy t - 1/5 = ((m - 200 : ℤ) : ℚ)/1000 := by
      rw [hm]
      push_cast
      ring
    refine ⟨by rw [htask]; exact hsc, ?_⟩
    rw [htask, hsc, hsub, round3_thousandth]

theorem cyclic_score_exact_witness :
    negScored.score = compositeScore 0 [negTask] "smart_balance" negTask - 1/5
    ∧ negScored.score < 0 := by
  have hmem : negScored ∈ score_tasks 0 [negTask] "smart_balance" := by
    rw [show score_tasks 0 [negTask] "smart_balance" = [negScored] from rfl]
    exact List.Mem.head _
  have h := cyclic_score_exact 0 [negTask] "smart_balance" negScored 5 hmem rfl (by decide)
  refine ⟨h.2, ?_⟩
  rw [h.2]
  have h1 : compute_urgency_score 0 negTask.due_date = 1/5 := rfl
  have h2 : normalize_importance negTask.importance = 1/10 := rfl
  have h3 : compute_effort_score negTask.estimated_hours = 1/5 := rfl
  have h4 : (dlookup negTask.id (compute_dependency_bonus [negTask])).getD 0 = 3/10 := rfl
  have h5 : getWeights "smart_balance" = ⟨7/20, 7/20, 3/20, 3/20⟩ := rfl
  show compositeScore 0 [negTask] "smart_balance" negScored.task - 1/5 < 0
  have h6 : negScored.task = negTask := rfl
  rw [h6]
  unfold compositeScore
  rw [h1, h2, h3, h4, h5]
  norm_num

/-! ## C10: every output score lies in [-0.2, 1.0] -/

/-- C10: every ScoredTask emitted by `score_tasks` has its score in
[−1/5, 1]: signals are at most 1, each weight row is non-negative and sums
to 1, only the fixed 0.2 cycle penalty can push below 0, and rounding to 3
decimals is exact on these values. -/
theorem score_in_range (today : Int) (tasks : List Task) (strategy : String)
    (st : ScoredTask) (hmem : st ∈ score_tasks today tasks strategy) :
    -1/5 ≤ st.score ∧ st.score ≤ 1 := by
  rcases mem_score_tasks today tasks strategy st hmem with hdef | ⟨t, ht, hst⟩
  · rw [hdef]
    constructor <;> norm_num [defaultScored]
  · obtain ⟨m, hm0, hm1000, hm⟩ := compositeScore_decomp today tasks strategy t
    have hsc : st.score = round3 (if idInCycles t.id (detect_cycles (tasksById tasks)) then
        compositeScore today tasks strategy t - 1/5
      else compositeScore today tasks strategy t) := by
      rw [hst, scoreOne_score_eq]
    by_cases hic : idInCycles t.id (detect_cycles (tasksById tasks)) = true
    · rw [hic] at hsc
      simp only [if_true] at hsc
      have hsub : compositeScore today tasks strategy t - 1/5 = ((m - 200 : ℤ) : ℚ)/1000 := by
        rw [hm]
        push_cast
        ring
      rw [hsub, round3_thousandth] at hsc
      rw [hsc]
      have hlo : (-200 : ℚ) ≤ ((m - 200 : ℤ) : ℚ) := by
        exact_mod_cast (by omega : (-200 : ℤ) ≤ m - 200)
      have hhi : ((m - 200 : ℤ) : ℚ) ≤ 1000 := by
        exact_mod_cast (by omega : (m - 200 : ℤ) ≤ 1000)
      constructor <;> linarith
    · rw [Bool.not_eq_true] at hic
      rw [hic] at hsc
      simp only [Bool.false_eq_true, if_false] at hsc
      rw [hm, round3_thousandth] at hsc
      rw [hsc]
      have hlo : (0 : ℚ) ≤ (m : ℚ) := by exact_mod_cast hm0
      have hhi : (m : ℚ) ≤ 1000 := by exact_mod_cast hm1000
      constructor <;> linarith

theorem score_in_range_witness :
    -1/5 ≤ negScored.score ∧ negScored.score ≤ 1 :=
  score_in_range 0 [negTask] "smart_balance" negScored
    (by rw [show score_tasks 0 [negTask] "smart_balance" = [negScored] from rfl]
        exact List.Mem.head _)

/-! ## C2: the score-guided topological ordering -/

theorem fupd_same {α : Type} (f : Int → α) (k : Int) (v : α) : fupd f k v k = v := by
  simp [fupd]

theorem fupd_other {α : Type} (f : Int → α) (k : Int) (v : α) (x : Int) (h : x ≠ k) :
    fupd f k v x = f x := by
  simp [fupd, h]

theorem maxByScore_mem (score : Int → ℚ) (a : Int) (rest : List Int) :
    maxByScore score a rest ∈ a :: rest := by
  induction rest generalizing a with
  | nil => exact List.Mem.head _
  | cons x xs ih =>
    have hstep : maxByScore score a (x :: xs)
        = maxByScore score (if score a < score x then x else a) xs := rfl
    rw [hstep]
    have h := ih (if score a < score x then x else a)
    rcases List.mem_cons.mp h with h1 | h1
    · rw [h1]
      by_cases hc : score a < score x
      · rw [if_pos hc]
        exact List.mem_cons_of_mem _ (List.Mem.head _)
      · rw [if_neg hc]
        exact List.Mem.head _
    · exact List.mem_cons_of_mem _ (List.mem_cons_of_mem _ h1)

theorem insertDesc_perm (score : Int → ℚ) (x : Int) (l : List Int) :
    List.Perm (insertDesc score x l) (x :: l) := by
  induction l with
  | nil => exact List.Perm.refl _
  | cons y ys ih =>
    unfold insertDesc
    by_cases h : score y < score x
    · rw [if_pos h]
    · rw [if_neg h]
      exact (List.Perm.cons y ih).trans (List.Perm.swap x y ys)

theorem insertDesc_pairwise (score : Int → ℚ) (x : Int) (l : List Int)
    (h : l.Pairwise (fun a b => score b ≤ score a)) :
    (insertDesc score x l).Pairwise (fun a b => score b ≤ score a) := by
  induction l with
  | nil => simp [insertDesc]
  | cons y ys ih =>
    rcases List.pairwise_cons.mp h with ⟨hy, hys⟩
    unfold insertDesc
    by_cases hc : score y < score x
    · rw [if_pos hc]
      refine List.pairwise_cons.mpr ⟨?_, h⟩
      intro z hz
      rcases List.mem_cons.mp hz with rfl | hz'
      · exact le_of_lt hc
      · exact le_trans (hy z hz') (le_of_lt hc)
    · rw [if_neg hc]
      refine List.pairwise_cons.mpr ⟨?_, ih hys⟩
      intro z hz
      rcases List.mem_cons.mp ((insertDesc_perm score x ys).subset hz) with rfl | hz'
      · exact le_of_not_lt hc
      · exact hy z hz'

theorem sortDesc_core_perm (score : Int → ℚ) (l acc : List Int) :
    List.Perm (l.foldl (fun acc x => insertDesc score x acc) acc) (acc ++ l) := by
  induction l generalizing acc with
  | nil => simp
  | cons x xs ih =>
    simp only [List.foldl_cons]
    refine (ih (insertDesc score x acc)).trans ?_
    refine (((insertDesc_perm score x acc).append_right xs).trans ?_)
    exact List.perm_middle.symm

theorem sortDescByScore_perm (score : Int → ℚ) (l : List Int) :
    List.Perm (sortDescByScore score l) l := by
  have h := sortDesc_core_perm score l []
  simpa [sortDescByScore] using h

theorem sortDesc_core_pairwise (score : Int → ℚ) (l acc : List Int)
    (h : acc.Pairwise (fun a b => score b ≤ score a)) :
    (l.foldl (fun acc x => insertDesc score x acc) acc).Pairwise
      (fun a b => score b ≤ score a) := by
  induction l generalizing acc with
  | nil => exact h
  | cons x xs ih =>
    simp only [List.foldl_cons]
    exact ih _ (insertDesc_pairwise score x acc h)

theorem sortDescByScore_pairwise (score : Int → ℚ) (l : List Int) :
    (sortDescByScore score l).Pairwise (fun a b => score b ≤ score a) :=
  sortDesc_core_pairwise score l [] List.Pairwise.nil

theorem stepNeighbors_nil (indeg : Int → Int) (avail : List Int) :
    stepNeighbors [] indeg avail = (indeg, avail) := rfl

theorem stepNeighbors_cons (n : Int) (tail : List Int) (indeg : Int → Int)
    (avail : List Int) :
    stepNeighbors (n :: tail) indeg avail =
      stepNeighbors tail (fupd indeg n (indeg n - 1))
        (if fupd indeg n (indeg n - 1) n = 0 then avail ++ [n] else avail) := rfl

theorem stepNeighbors_spec (ns : List Int) (indeg : Int → Int) (avail : List Int) :
    (∀ x, (stepNeighbors ns indeg avail).1 x = indeg x - ns.count x) ∧
    ∃ born : List Int,
      (stepNeighbors ns indeg avail).2 = avail ++ born ∧
      born.Nodup ∧
      ∀ y ∈ born, y ∈ ns ∧ 1 ≤ indeg y ∧ (stepNeighbors ns indeg avail).1 y ≤ 0 := by
  induction ns generalizing indeg avail with
  | nil =>
    refine ⟨fun x => by simp [stepNeighbors_nil], [], by simp [stepNeighbors_nil],
      List.nodup_nil, ?_⟩
    intro y hy
    cases hy
  | cons n tail ih =>
    rw [stepNeighbors_cons]
    obtain ⟨ih1, born', hb1, hb2, hb3⟩ :=
      ih (fupd indeg n (indeg n - 1))
        (if fupd indeg n (indeg n - 1) n = 0 then avail ++ [n] else avail)
    have hfs : fupd indeg n (indeg n - 1) n = indeg n - 1 := fupd_same indeg n _
    have hind1le : ∀ y, fupd indeg n (indeg n - 1) y ≤ indeg y := by
      intro y
      by_cases hyn : y = n
      · rw [hyn, hfs]
        omega
      · rw [fupd_other _ _ _ _ hyn]
    constructor
    · intro x
      rw [ih1 x]
      have hc : (n :: tail).count x = tail.count x + (if x = n then 1 else 0) := by
        by_cases hxn : x = n <;> simp [List.count_cons, hxn]
      rw [hc]
      by_cases hxn : x = n
      · rw [if_pos hxn, hxn, hfs]
        push_cast
        omega
      · rw [if_neg hxn, fupd_other _ _ _ _ hxn]
        push_cast
        omega
    · by_cases hz : fupd indeg n (indeg n - 1) n = 0
      · rw [if_pos hz] at hb1 ih1 hb3 ⊢
        refine ⟨n :: born', ?_, ?_, ?_⟩
        · rw [hb1]
          simp
        · refine List.nodup_cons.mpr ⟨fun hn => ?_, hb2⟩
          have h1 := (hb3 n hn).2.1
          rw [hz] at h1
          omega
        · intro y hy
          rcases List.mem_cons.mp hy with hyn | hy'
          · subst hyn
            have hz1 : indeg y - 1 = 0 := by rw [← hfs]; exact hz
            refine ⟨List.Mem.head _, by omega, ?_⟩
            rw [ih1 y, hfs]
            omega
          · obtain ⟨hyt, hy1, hy2⟩ := hb3 y hy'
            exact ⟨List.mem_cons_of_mem _ hyt, le_trans hy1 (hind1le y), hy2⟩
      · rw [if_neg hz] at hb1 ih1 hb3 ⊢
        refine ⟨born', hb1, hb2, ?_⟩
        intro y hy
        obtain ⟨hyt, hy1, hy2⟩ := hb3 y hy
        exact ⟨List.mem_cons_of_mem _ hyt, le_trans hy1 (hind1le y), hy2⟩

theorem graphInner_spec (nc : List Int) (tid : Int) (l : List Int)
    (p : (Int → Int) × (Int → List Int)) :
    (∀ x, (l.foldl (fun q dep => if dep ∈ nc then
          (fupd q.1 tid (q.1 tid + 1), fupd q.2 dep (q.2 dep ++ [tid])) else q) p).1 x
        = if x = tid then p.1 x + ((l.filter (fun d => decide (d ∈ nc))).length : ℤ)
          else p.1 x)
    ∧ (∀ d x, ((l.foldl (fun q dep => if dep ∈ nc then
          (fupd q.1 tid (q.1 tid + 1), fupd q.2 dep (q.2 dep ++ [tid])) else q) p).2 d).count x
        = (p.2 d).count x + if x = tid ∧ d ∈ nc then l.count d else 0) := by
  induction l generalizing p with
  | nil =>
    constructor
    · intro x
      by_cases hx : x = tid <;> simp [hx]
    · intro d x
      by_cases hc : x = tid ∧ d ∈ nc <;> simp [hc]
  | cons e rest ih =>
    simp only [List.foldl_cons]
    by_cases he : e ∈ nc
    · rw [if_pos he]
      obtain ⟨ihh1, ihh2⟩ := ih (fupd p.1 tid (p.1 tid + 1), fupd p.2 e (p.2 e ++ [tid]))
      dsimp only at ihh1 ihh2
      constructor
      · intro x
        rw [ihh1 x]
        by_cases hx : x = tid
        · rw [if_pos hx, if_pos hx]
          have hflt : ((e :: rest).filter (fun d => decide (d ∈ nc))).length
              = (rest.filter (fun d => decide (d ∈ nc))).length + 1 := by
            simp [List.filter_cons, he]
          rw [hflt, hx, fupd_same]
          push_cast
          ring
        · rw [if_neg hx, if_neg hx, fupd_other _ _ _ _ hx]
      · intro d x
        rw [ihh2 d x]
        by_cases hde : d = e
        · rw [hde, fupd_same]
          have hca : (p.2 e ++ [tid]).count x = (p.2 e).count x + if x = tid then 1 else 0 := by
            by_cases hx : x = tid <;> simp [List.count_append, hx]
          have hcc : (e :: rest).count e = rest.count e + 1 := by
            simp [List.count_cons]
          rw [hca, hcc]
          by_cases hx : x = tid
          · simp only [hx, he, and_true, if_true, eq_self_iff_true]
            omega
          · simp [hx]
        · rw [fupd_other _ _ _ _ hde]
          have hcc : (e :: rest).count d = rest.count d := by
            simp [List.count_cons, hde]
          rw [hcc]
    · rw [if_neg he]
      obtain ⟨ihh1, ihh2⟩ := ih p
      constructor
      · intro x
        rw [ihh1 x]
        have hflt : ((e :: rest).filter (fun d => decide (d ∈ nc))).length
            = (rest.filter (fun d => decide (d ∈ nc))).length := by
          simp [List.filter_cons, he]
        rw [hflt]
      · intro d x
        rw [ihh2 d x]
        have hcc2 : (if x = tid ∧ d ∈ nc then (e :: rest).count d else 0)
            = (if x = tid ∧ d ∈ nc then rest.count d else 0) := by
          by_cases hcond : x = tid ∧ d ∈ nc
          · rw [if_pos hcond, if_pos hcond]
            have hde : d ≠ e := fun h => he (h ▸ hcond.2)
            simp [List.count_cons, hde]
          · rw [if_neg hcond, if_neg hcond]
        rw [hcc2]

theorem graphOuter_spec (nc : List Int) (depsOf : Int → List Int) (L : List Int)
    (p : (Int → Int) × (Int → List Int)) :
    (∀ x, (L.foldl (fun p tid => (depsOf tid).foldl (fun q dep => if dep ∈ nc then
          (fupd q.1 tid (q.1 tid + 1), fupd q.2 dep (q.2 dep ++ [tid])) else q) p) p).1 x
        = p.1 x + (L.count x : ℤ) * (((depsOf x).filter (fun d => decide (d ∈ nc))).length : ℤ))
    ∧ (∀ d x, ((L.foldl (fun p tid => (depsOf tid).foldl (fun q dep => if dep ∈ nc then
          (fupd q.1 tid (q.1 tid + 1), fupd q.2 dep (q.2 dep ++ [tid])) else q) p) p).2 d).count x
        = (p.2 d).count x + L.count x * (if d ∈ nc then (depsOf x).count d else 0)) := by
  induction L generalizing p with
  | nil =>
    constructor
    · intro x
      simp
    · intro d x
      simp
  | cons t rest ih =>
    simp only [List.foldl_cons]
    obtain ⟨h1, h2⟩ := graphInner_spec nc t (depsOf t) p
    obtain ⟨ih1, ih2⟩ := ih ((depsOf t).foldl (fun q dep => if dep ∈ nc then
      (fupd q.1 t (q.1 t + 1), fupd q.2 dep (q.2 dep ++ [t])) else q) p)
    constructor
    · intro x
      rw [ih1 x, h1 x]
      by_cases hx : x = t
      · rw [if_pos hx]
        have hcc : (t :: rest).count x = rest.count x + 1 := by
          simp [List.count_cons, hx]
        rw [hcc, hx]
        push_cast
        ring
      · rw [if_neg hx]
        have hcc : (t :: rest).count x = rest.count x := by
          simp [List.count_cons, hx]
        rw [hcc]
    · intro d x
      rw [ih2 d x, h2 d x]
      by_cases hx : x = t
      · have hcc : (t :: rest).count x = rest.count x + 1 := by
          simp [List.count_cons, hx]
        rw [hcc]
        by_cases hd : d ∈ nc
        · simp [hx, hd]
          ring
        · simp [hx, hd]
      · have hcc : (t :: rest).count x = rest.count x := by
          simp [List.count_cons, hx]
        rw [hcc]
        have hfalse : ¬ (x = t ∧ d ∈ nc) := fun h => hx h.1
        rw [if_neg hfalse]
        omega

theorem graphFold_indeg (nc : List Int) (depsOf : Int → List Int) (hnd : nc.Nodup)
    (x : Int) (hx : x ∈ nc) :
    (graphFold nc depsOf).1 x
      = (((depsOf x).filter (fun d => decide (d ∈ nc))).length : ℤ) := by
  have h := (graphOuter_spec nc depsOf nc (fun _ => 0, fun _ => [])).1 x
  unfold graphFold
  rw [h, List.count_eq_one_of_mem hnd hx]
  push_cast
  ring

theorem graphFold_adj_count (nc : List Int) (depsOf : Int → List Int) (hnd : nc.Nodup)
    (d : Int) (hd : d ∈ nc) (x : Int) :
    ((graphFold nc depsOf).2 d).count x
      = if x ∈ nc then ((depsOf x).filter (fun e => decide (e ∈ nc))).count d else 0 := by
  have h := (graphOuter_spec nc depsOf nc (fun _ => 0, fun _ => [])).2 d x
  unfold graphFold
  rw [h]
  by_cases hx : x ∈ nc
  · rw [if_pos hx, List.count_eq_one_of_mem hnd hx, if_pos hd]
    have hf : ((depsOf x).filter (fun e => decide (e ∈ nc))).count d = (depsOf x).count d := by
      apply List.count_filter
      simp [hd]
    rw [hf]
    simp
  · rw [if_neg hx]
    have hz : nc.count x = 0 := by
      rw [List.count_eq_zero]
      exact hx
    rw [hz]
    simp

theorem KPrec_mem_deps (rdeps : Int → List Int) (ordered : List Int)
    (hpr : KPrec rdeps ordered) (t : Int) (ht : t ∈ ordered) :
    ∀ d ∈ rdeps t, d ∈ ordered := by
  obtain ⟨⟨n, hn⟩, hget⟩ := List.mem_iff_get.mp ht
  intro d hd
  have h := hpr n hn d (by rw [hget]; exact hd)
  exact List.take_subset n ordered h

theorem length_filter_ne_add_count (m : List Int) (b : Int) :
    (m.filter (fun d => !decide (d = b))).length + m.count b = m.length := by
  induction m with
  | nil => simp
  | cons e rest ih =>
    by_cases heb : e = b <;> simp [List.filter_cons, List.count_cons, heb] <;> omega

theorem length_filter_notmem_snoc (l o : List Int) (b : Int) (hb : b ∉ o) :
    ((l.filter (fun d => !decide (d ∈ o ++ [b]))).length) + l.count b
      = (l.filter (fun d => !decide (d ∈ o))).length := by
  have hs : l.filter (fun d => !decide (d ∈ o ++ [b]))
      = (l.filter (fun d => !decide (d ∈ o))).filter (fun d => !decide (d = b)) := by
    rw [List.filter_filter]
    apply List.filter_congr
    intro a _
    by_cases h1 : a ∈ o <;> by_cases h2 : a = b <;> simp [List.mem_append, h1, h2]
  rw [hs]
  have hc : (l.filter (fun d => !decide (d ∈ o))).count b = l.count b := by
    apply List.count_filter
    simp [hb]
  rw [← hc]
  exact length_filter_ne_add_count _ b

theorem kahn_step (score : Int → ℚ) (adj : Int → List Int) (nc : List Int)
    (rdeps : Int → List Int)
    (hadj : ∀ d, d ∈ nc → ∀ t, (adj d).count t
      = if t ∈ nc then (rdeps t).count d else 0)
    (indeg : Int → Int) (a : Int) (rest ordered : List Int)
    (hInv : KInv nc rdeps indeg (a :: rest) ordered) :
    KInv nc rdeps
      (stepNeighbors (adj (maxByScore score a rest)) indeg
        ((a :: rest).erase (maxByScore score a rest))).1
      (stepNeighbors (adj (maxByScore score a rest)) indeg
        ((a :: rest).erase (maxByScore score a rest))).2
      (ordered ++ [maxByScore score a rest]) := by
  obtain ⟨hJ1, hNd, hAnc, hOnc, hA0, hDisj, hPrec⟩ := hInv
  set best := maxByScore score a rest with hbestdef
  have hbm : best ∈ a :: rest := maxByScore_mem score a rest
  have hbnc : best ∈ nc := hAnc best hbm
  have hb0 : indeg best = 0 := hA0 best hbm
  have hbno : best ∉ ordered := hDisj best hbm
  have hdone : ∀ t, t ∈ a :: rest → ∀ d ∈ rdeps t, d ∈ ordered := by
    intro t ht d hd
    have h1 := hJ1 t (hAnc t ht)
    rw [hA0 t ht] at h1
    have hlen : ((rdeps t).filter (fun d => !decide (d ∈ ordered))).length = 0 := by
      exact_mod_cast h1.symm
    have hnil := List.length_eq_zero.mp hlen
    have hall := List.filter_eq_nil_iff.mp hnil d hd
    simpa using hall
  have hdone_ord : ∀ t, t ∈ ordered → ∀ d ∈ rdeps t, d ∈ ordered :=
    fun t ht => KPrec_mem_deps rdeps ordered hPrec t ht
  have hord0 : ∀ t, t ∈ ordered → indeg t = 0 := by
    intro t ht
    have h1 := hJ1 t (hOnc t ht)
    have hnil : (rdeps t).filter (fun d => !decide (d ∈ ordered)) = [] := by
      apply List.filter_eq_nil_iff.mpr
      intro d hd
      simp [hdone_ord t ht d hd]
    rw [h1, hnil]
    rfl
  obtain ⟨hstep1, born, hstep2, hbornNd, hborn⟩ :=
    stepNeighbors_spec (adj best) indeg ((a :: rest).erase best)
  have hav'sub : ∀ z ∈ (a :: rest).erase best, z ∈ a :: rest :=
    fun z hz => List.mem_of_mem_erase hz
  have hav'ne : ∀ z ∈ (a :: rest).erase best, z ≠ best := by
    intro z hz
    exact ((List.Nodup.mem_erase_iff hNd).mp hz).1
  have hav'count : ∀ z ∈ (a :: rest).erase best, (adj best).count z = 0 := by
    intro z hz
    have hz' := hav'sub z hz
    rw [hadj best hbnc z, if_pos (hAnc z hz')]
    rw [List.count_eq_zero]
    intro hmem
    exact hbno (hdone z hz' best hmem)
  have hbornnc : ∀ y ∈ born, y ∈ nc := by
    intro y hy
    by_contra hync
    have h := hadj best hbnc y
    rw [if_neg hync] at h
    have hpos : y ∈ adj best := (hborn y hy).1
    have := List.count_pos_iff.mpr hpos
    omega
  have hborn1 : ∀ y ∈ born, 1 ≤ indeg y := fun y hy => (hborn y hy).2.1
  have hJ1' : ∀ t ∈ nc, (stepNeighbors (adj best) indeg ((a :: rest).erase best)).1 t
      = (((rdeps t).filter (fun d => !decide (d ∈ ordered ++ [best]))).length : ℤ) := by
    intro t htnc
    rw [hstep1 t, hJ1 t htnc, hadj best hbnc t, if_pos htnc]
    have hsnoc := length_filter_notmem_snoc (rdeps t) ordered best hbno
    omega
  refine ⟨hJ1', ?_, ?_, ?_, ?_, ?_, ?_⟩
  · rw [hstep2]
    refine List.Nodup.append (hNd.erase best) hbornNd ?_
    intro z hz1 hz2
    have h0 : indeg z = 0 := hA0 z (hav'sub z hz1)
    have h1 := hborn1 z hz2
    omega
  · rw [hstep2]
    intro t ht
    rcases List.mem_append.mp ht with he | hb2
    · exact hAnc t (hav'sub t he)
    · exact hbornnc t hb2
  · intro t ht
    rcases List.mem_append.mp ht with ho | hbt
    · exact hOnc t ho
    · rw [List.mem_singleton.mp hbt]
      exact hbnc
  · rw [hstep2]
    intro t ht
    rcases List.mem_append.mp ht with he | hb2
    · rw [hstep1 t, hav'count t he, hA0 t (hav'sub t he)]
      rfl
    · have hle := (hborn t hb2).2.2
      have hge := hJ1' t (hbornnc t hb2)
      omega
  · rw [hstep2]
    intro t ht hmem'
    rcases List.mem_append.mp hmem' with hto | htb2
    · rcases List.mem_append.mp ht with he | hb2
      · exact hDisj t (hav'sub t he) hto
      · have := hord0 t hto
        have := hborn1 t hb2
        omega
    · have htb : t = best := List.mem_singleton.mp htb2
      rcases List.mem_append.mp ht with he | hb2
      · exact hav'ne t he htb
      · have := hborn1 t hb2
        rw [htb] at this
        omega
  · intro n hn d hd
    have hlen2 : (ordered ++ [best]).length = ordered.length + 1 := by simp
    by_cases hno : n < ordered.length
    · have hget : (ordered ++ [best]).get ⟨n, hn⟩ = ordered.get ⟨n, hno⟩ := by
        rw [List.get_eq_getElem, List.get_eq_getElem]
        exact List.getElem_append_left hno
      rw [hget] at hd
      have hmem := hPrec n hno d hd
      have htake : (ordered ++ [best]).take n = ordered.take n := by
        rw [List.take_append_eq_append_take, Nat.sub_eq_zero_of_le (le_of_lt hno)]
        simp
      rw [htake]
      exact hmem
    · have hne : n = ordered.length := by
        rw [hlen2] at hn
        omega
      have hget : (ordered ++ [best]).get ⟨n, hn⟩ = best := by
        subst hne
        rw [List.get_eq_getElem]
        rw [List.getElem_append_right (Nat.le_refl _)]
        simp
      rw [hget] at hd
      have hmem := hdone best hbm d hd
      have htake : (ordered ++ [best]).take n = ordered := by
        rw [hne]
        exact List.take_left ordered [best]
      rw [htake]
      exact hmem

theorem kahnLoop_spec (score : Int → ℚ) (adj : Int → List Int) (nc : List Int)
    (rdeps : Int → List Int)
    (hadj : ∀ d, d ∈ nc → ∀ t, (adj d).count t
      = if t ∈ nc then (rdeps t).count d else 0) :
    ∀ (fuel : Nat) (indeg : Int → Int) (avail ordered : List Int),
      KInv nc rdeps indeg avail ordered →
      KPrec rdeps (kahnLoop score adj fuel indeg avail ordered)
      ∧ ∀ t ∈ kahnLoop score adj fuel indeg avail ordered, t ∈ nc := by
  intro fuel
  induction fuel with
  | zero =>
    intro indeg avail ordered hInv
    exact ⟨hInv.2.2.2.2.2.2, hInv.2.2.2.1⟩
  | succ fuel ih =>
    intro indeg avail ordered hInv
    cases avail with
    | nil => exact ⟨hInv.2.2.2.2.2.2, hInv.2.2.2.1⟩
    | cons a rest =>
      have hstep := kahn_step score adj nc rdeps hadj indeg a rest ordered hInv
      exact ih _ _ _ hstep

theorem dkeys_dinsert {κ α : Type} [DecidableEq κ] (k : κ) (v : α) (d : List (κ × α)) :
    dkeys (dinsert k v d) = if k ∈ dkeys d then dkeys d else dkeys d ++ [k] := by
  induction d with
  | nil => simp [dinsert, dkeys]
  | cons p rest ih =>
    obtain ⟨k1, v1⟩ := p
    by_cases hp : k1 = k
    · simp [dinsert, dkeys, hp]
    · have hstep : dinsert k v ((k1, v1) :: rest) = (k1, v1) :: dinsert k v rest := by
        simp [dinsert, hp]
      rw [hstep]
      have hkeys : dkeys ((k1, v1) :: dinsert k v rest) = k1 :: dkeys (dinsert k v rest) := rfl
      rw [hkeys, ih]
      by_cases hk : k ∈ dkeys rest
      · rw [if_pos hk,
          if_pos (show k ∈ dkeys ((k1, v1) :: rest) from List.mem_cons_of_mem _ hk)]
        rfl
      · rw [if_neg hk, if_neg (show k ∉ dkeys ((k1, v1) :: rest) from ?_)]
        · rfl
        · intro hmem
          rcases List.mem_cons.mp hmem with he | hm
          · exact hp he.symm
          · exact hk hm

theorem dkeys_dinsert_nodup {κ α : Type} [DecidableEq κ] (k : κ) (v : α)
    (d : List (κ × α)) (hd : (dkeys d).Nodup) : (dkeys (dinsert k v d)).Nodup := by
  rw [dkeys_dinsert]
  by_cases hk : k ∈ dkeys d
  · rw [if_pos hk]
    exact hd
  · rw [if_neg hk]
    simp [List.nodup_append, hd, hk]

theorem scoredBuild_keys_nodup (l : List ScoredTask) (d : List (Int × ScoredTask))
    (hd : (dkeys d).Nodup) :
    (dkeys (l.foldl (fun acc st => match st.task.id with
      | some i => dinsert i st acc
      | none => acc) d)).Nodup := by
  induction l generalizing d with
  | nil => exact hd
  | cons st rest ih =>
    simp only [List.foldl_cons]
    rcases hid : st.task.id with _ | i
    · simp only [hid]
      exact ih d hd
    · simp only [hid]
      exact ih _ (dkeys_dinsert_nodup i st d hd)

theorem scoredById_keys_nodup (today : Int) (tasks : List Task) (w : Weights) :
    (dkeys (scoredById today tasks w)).Nodup :=
  scoredBuild_keys_nodup _ [] (by simp [dkeys])

theorem nonCycleIds_nodup (today : Int) (tasks : List Task) (w : Weights) :
    (nonCycleIds today tasks w).Nodup :=
  (scoredById_keys_nodup today tasks w).filter _

/-- The emitted prefix of the ordering phase satisfies the precedence
property (every in-batch, non-cyclic dependency of an emitted task is
emitted strictly before it) and consists of orderable identifiers. -/
theorem orderedIds_spec (today : Int) (tasks : List Task) (w : Weights) :
    KPrec (rdepsOf today tasks w) (orderedIds today tasks w)
    ∧ ∀ t ∈ orderedIds today tasks w, t ∈ nonCycleIds today tasks w := by
  have hnd : (nonCycleIds today tasks w).Nodup := nonCycleIds_nodup today tasks w
  have hadj : ∀ d, d ∈ nonCycleIds today tasks w → ∀ t,
      ((graphFold (nonCycleIds today tasks w) (depsOfIn tasks)).2 d).count t
        = if t ∈ nonCycleIds today tasks w then (rdepsOf today tasks w t).count d
          else 0 := by
    intro d hd t
    exact graphFold_adj_count _ _ hnd d hd t
  have hInv : KInv (nonCycleIds today tasks w) (rdepsOf today tasks w)
      (graphFold (nonCycleIds today tasks w) (depsOfIn tasks)).1
      ((nonCycleIds today tasks w).filter (fun tid =>
        decide ((graphFold (nonCycleIds today tasks w) (depsOfIn tasks)).1 tid = 0)))
      [] := by
    refine ⟨?_, hnd.filter _, ?_, ?_, ?_, ?_, ?_⟩
    · intro t ht
      rw [graphFold_indeg _ _ hnd t ht]
      have htriv : (rdepsOf today tasks w t).filter
          (fun d => !decide (d ∈ ([] : List Int))) = rdepsOf today tasks w t := by
        simp
      rw [htriv]
      rfl
    · intro t ht
      exact List.mem_of_mem_filter ht
    · intro t ht
      cases ht
    · intro t ht
      have h := List.of_mem_filter ht
      simpa using h
    · intro t ht h
      cases h
    · intro n h d
      simp at h
  exact kahnLoop_spec (scoreKey (scoredById today tasks w))
    (graphFold (nonCycleIds today tasks w) (depsOfIn tasks)).2
    (nonCycleIds today tasks w) (rdepsOf today tasks w) hadj
    ((nonCycleIds today tasks w).length + 1) _ _ _ hInv

/-- C2: the structure and correctness of the ordering phase.  The output
of `score_tasks` is the lookup image of `ordered_ids ++ remaining ++
cyclic` (conjunct 1); the emitted `ordered_ids` contain only orderable
tasks (conjunct 2) and respect dependencies: every in-batch non-cyclic
dependency of an emitted task precedes it (conjunct 3); the leftover
orderable tasks follow as a descending-score permutation of the unemitted
orderable identifiers (conjuncts 4–5); the cyclic tasks come last, as a
descending-score permutation of the cycle-set identifiers (conjuncts 6–7). -/
theorem score_tasks_ordering (today : Int) (tasks : List Task) (strategy : String) :
    score_tasks today tasks strategy
      = (orderedIds today tasks (getWeights strategy)
          ++ leftoverSorted today tasks (getWeights strategy)
          ++ cycleSorted today tasks (getWeights strategy)).map
          (fun tid => (dlookup tid (scoredById today tasks (getWeights strategy))).getD
            defaultScored)
    ∧ (∀ t ∈ orderedIds today tasks (getWeights strategy),
        t ∈ nonCycleIds today tasks (getWeights strategy))
    ∧ KPrec (rdepsOf today tasks (getWeights strategy))
        (orderedIds today tasks (getWeights strategy))
    ∧ List.Perm (leftoverSorted today tasks (getWeights strategy))
        ((nonCycleIds today tasks (getWeights strategy)).filter
          (fun tid => !decide (tid ∈ orderedIds today tasks (getWeights strategy))))
    ∧ (leftoverSorted today tasks (getWeights strategy)).Pairwise
        (fun a b => scoreKey (scoredById today tasks (getWeights strategy)) b
          ≤ scoreKey (scoredById today tasks (getWeights strategy)) a)
    ∧ List.Perm (cycleSorted today tasks (getWeights strategy))
        (cycleIdsOf today tasks (getWeights strategy))
    ∧ (cycleSorted today tasks (getWeights strategy)).Pairwise
        (fun a b => scoreKey (scoredById today tasks (getWeights strategy)) b
          ≤ scoreKey (scoredById today tasks (getWeights strategy)) a) := by
  refine ⟨rfl, (orderedIds_spec today tasks (getWeights strategy)).2,
    (orderedIds_spec today tasks (getWeights strategy)).1,
    sortDescByScore_perm _ _, sortDescByScore_pairwise _ _,
    sortDescByScore_perm _ _, sortDescByScore_pairwise _ _⟩

theorem score_tasks_ordering_witness :
    (1 : Int) ∈ (orderedIds 0 [taskS1, taskS2] (getWeights "smart_balance")).take 1 := by
  have h12 : orderedIds 0 [taskS1, taskS2] (getWeights "smart_balance") = [1, 2] := by
    decide
  have hlen : 1 < (orderedIds 0 [taskS1, taskS2] (getWeights "smart_balance")).length := by
    rw [h12]
    decide
  have hget : (orderedIds 0 [taskS1, taskS2] (getWeights "smart_balance")).get ⟨1, hlen⟩
      = 2 := by
    have haux : ∀ (l : List Int), l = [1, 2] → ∀ (hh : 1 < l.length), l.get ⟨1, hh⟩ = 2 := by
      intro l hl hh
      subst hl
      rfl
    exact haux _ h12 hlen
  have hd : (1 : Int) ∈ rdepsOf 0 [taskS1, taskS2] (getWeights "smart_balance")
      ((orderedIds 0 [taskS1, taskS2] (getWeights "smart_balance")).get ⟨1, hlen⟩) := by
    rw [hget]
    decide
  exact (score_tasks_ordering 0 [taskS1, taskS2] "smart_balance").2.2.1 1 hlen 1 hd

end TaskPrio
